import Mathlib

/-!
Verification of the PhoenixVisualizer batch source-migration scripts.

The repository consists of four Python scripts that rewrite C# source files
by textual pattern matching:

* `PhoenixVisualizer.Core/Effects/Nodes/AvsEffects/fix.py` — regex-based
  block replacement/removal plus whitespace normalization, with a backup
  before each write and a post-write structural verification;
* `fix_simple.py`, `fix_braces.py` — chains of `str.replace` calls, writing
  the file back unconditionally;
* `fix_all_node_canvas_conversions.py` — guarded literal rewriting
  (first matching pattern only), writing only when a pattern fired.

The scripts are embedded shallowly: file content is `List Char`, the
Python `str.replace` / `re.sub` loops become structurally recursive
scanners, and the per-file I/O behaviour is recorded as a trace of events.
-/

set_option maxRecDepth 20000

namespace PhoenixFix

/-- Boolean prefix test on character lists (the semantics of a literal
pattern matching at the current scan position). -/
def pfx : List Char → List Char → Bool
  | [], _ => true
  | _ :: _, [] => false
  | a :: as, b :: bs => if a = b then pfx as bs else false

/-- `Pfx u v` : `u` is a prefix of `v`. -/
def Pfx (u v : List Char) : Prop := ∃ w, v = u ++ w

/-- `Occ p s` : the pattern `p` occurs (as a contiguous run) somewhere in `s`. -/
def Occ (p s : List Char) : Prop := ∃ a b, s = a ++ p ++ b

/-- Python's `p in s` test: scan every suffix for a prefix match. -/
def occursB (p : List Char) : List Char → Bool
  | [] => pfx p []
  | c :: cs => pfx p (c :: cs) || occursB p cs

theorem pfx_iff (u : List Char) : ∀ v, pfx u v = true ↔ Pfx u v := by
  induction u with
  | nil =>
    intro v
    simp [pfx, Pfx]
  | cons a as ih =>
    intro v
    cases v with
    | nil =>
      simp [pfx, Pfx]
    | cons b bs =>
      constructor
      · intro h
        simp only [pfx] at h
        split at h
        · rcases (ih bs).mp h with ⟨w, hw⟩
          subst hw
          rename_i hab
          exact ⟨w, by simp [hab]⟩
        · exact absurd h (by simp)
      · rintro ⟨w, hw⟩
        simp only [List.cons_append] at hw
        cases hw
        simp only [pfx, if_pos rfl]
        exact (ih (as ++ w)).mpr ⟨w, rfl⟩

theorem occursB_iff (p : List Char) : ∀ s, occursB p s = true ↔ Occ p s := by
  induction p with
  | nil =>
    intro s
    constructor
    · intro _
      exact ⟨[], s, by simp⟩
    · intro _
      cases s <;> simp [occursB, pfx]
  | cons a as =>
    intro s
    induction s with
    | nil =>
      constructor
      · intro h
        simp [occursB, pfx] at h
      · rintro ⟨x, y, hxy⟩
        have hl := congrArg List.length hxy
        simp [List.length_append] at hl
        omega
    | cons c cs ihs =>
      simp only [occursB, Bool.or_eq_true]
      constructor
      · intro h
        cases h with
        | inl h =>
          rcases (pfx_iff _ _).mp h with ⟨w, hw⟩
          exact ⟨[], w, by simpa using hw⟩
        | inr h =>
          rcases ihs.mp h with ⟨x, y, hxy⟩
          exact ⟨c :: x, y, by simp [hxy]⟩
      · rintro ⟨x, y, hxy⟩
        cases x with
        | nil =>
          left
          exact (pfx_iff _ _).mpr ⟨y, by simpa using hxy⟩
        | cons x0 xs =>
          right
          simp only [List.cons_append, List.cons.injEq] at hxy
          exact ihs.mpr ⟨xs, y, hxy.2⟩

example : pfx ("ab".data) ("abc".data) = true := by decide
example : occursB ("bc".data) ("abcd".data) = true := by decide
example : occursB ("bd".data) ("abcd".data) = false := by decide

/-! ### Generic scanners

`repAll p r` is Python's `s.replace(p, r)` for a nonempty literal `p`:
scan left to right, replace every non-overlapping occurrence, resume
after the replaced span.  `subAll m r` is `re.sub` for a matcher `m`
that, at the current position, either fails or reports the length of the
(deterministic) match; the scan resumes after the matched span.  In both
functions the recursive call receives `List.drop (n - 1) cs`, which for a
match length `n ≥ 1` on input `c :: cs` is exactly `List.drop n (c :: cs)`.
-/

/-- Worker for `repAll`: scan character by character; while the skip
counter is positive the current character belongs to an already-replaced
match and is dropped; at skip 0 a literal match emits the replacement and
sets the counter to the rest of the match. -/
def repAllAux (p r : List Char) : List Char → Nat → List Char
  | [], _ => []
  | _ :: cs, Nat.succ k => repAllAux p r cs k
  | c :: cs, 0 =>
    if pfx p (c :: cs) then r ++ repAllAux p r cs (p.length - 1)
    else c :: repAllAux p r cs 0

/-- Python's `s.replace(p, r)` for a nonempty literal `p`: replace every
non-overlapping occurrence, scanning left to right and resuming after the
replaced span. -/
def repAll (p r s : List Char) : List Char := repAllAux p r s 0

/-- Worker for `subAll`, with the same skip-counter discipline. -/
def subAllAux (m : List Char → Option Nat) (r : List Char) : List Char → Nat → List Char
  | [], _ => []
  | _ :: cs, Nat.succ k => subAllAux m r cs k
  | c :: cs, 0 =>
    match m (c :: cs) with
    | some n => r ++ subAllAux m r cs (n - 1)
    | none => c :: subAllAux m r cs 0

/-- `re.sub` for a matcher `m` that at each position either fails or
reports the length of its (deterministic) match: every non-overlapping
match is replaced by `r`, and the scan resumes after the matched span. -/
def subAll (m : List Char → Option Nat) (r s : List Char) : List Char :=
  subAllAux m r s 0

/-- Worker for `countSub`. -/
def countSubAux (p : List Char) : List Char → Nat → Nat
  | [], _ => 0
  | _ :: cs, Nat.succ k => countSubAux p cs k
  | c :: cs, 0 =>
    if pfx p (c :: cs) then 1 + countSubAux p cs (p.length - 1)
    else countSubAux p cs 0

/-- Python's `s.count(p)`: number of non-overlapping occurrences, scanning
left to right. -/
def countSub (p s : List Char) : Nat := countSubAux p s 0

/-- The whitespace characters Python's `str.strip`/`str.rstrip` remove and
regex `\s` matches, restricted to ASCII (all file content handled by the
scripts is ASCII source text). -/
def isPySpace (c : Char) : Bool :=
  c = ' ' || c = '\t' || c = '\n' || c = '\r' || c = '\x0b' || c = '\x0c'

/-- Consume a literal at the current position, returning the rest. -/
def dropLit (p s : List Char) : Option (List Char) :=
  if pfx p s then some (List.drop p.length s) else none

/-- Semantics of the regex fragment `[^X]*X`: the scan consumes up to and
including the first occurrence of the character `stop`, with no
backtracking alternative (the starred class excludes `stop`). -/
def scanTo (stop : Char) : List Char → Option Nat
  | [] => none
  | c :: cs => if c = stop then some 1 else (scanTo stop cs).map (· + 1)

/-- Semantics of the regex fragment `\s*\{`: greedily consume whitespace,
then require an opening brace (which is not whitespace, so backtracking
can never produce a different match). -/
def wsOpen : List Char → Option Nat
  | [] => none
  | c :: cs =>
    if c = '\x7b' then some 1
    else if isPySpace c then (wsOpen cs).map (· + 1) else none

/-- Length of the maximal whitespace prefix, paired with the number of
newline characters inside it. -/
def wsRun : List Char → Nat × Nat
  | [] => (0, 0)
  | c :: cs =>
    if isPySpace c then
      let p := wsRun cs
      (p.1 + 1, p.2 + (if c = '\n' then 1 else 0))
    else (0, 0)

/-! ### fix.py: the pattern catalog -/

def sigPF : List Char := "public override void ProcessFrame(".data

def sigGC : List Char :=
  "public override Dictionary<string, object> GetConfiguration()".data

def sigAC : List Char :=
  "public override void ApplyConfiguration(Dictionary<string, object> config)".data

def rSig : List Char := "#region Configuration".data

def endSig : List Char := "#endregion".data

/-- The replacement block fix.py substitutes for a `ProcessFrame` method
(the triple-quoted string in the source, byte for byte). -/
def replPF : List Char :=
  ("        protected override object ProcessCore(Dictionary<string, object> inputs, AudioFeatures audioFeatures)\n        \x7b\n            if (!inputs.TryGetValue(\"Image\", out var input) || input is not ImageBuffer imageBuffer)\n                return GetDefaultOutput();\n\n            var output = new ImageBuffer(imageBuffer.Width, imageBuffer.Height);\n            \n            // TODO: Implement actual effect logic here\n            // For now, just copy input to output\n            for (int i = 0; i < output.Pixels.Length; i++)\n            \x7b\n                output.Pixels[i] = imageBuffer.Pixels[i];\n            \x7d\n            \n            return output;\n        \x7d\n\n        public override object GetDefaultOutput()\n        \x7b\n            return new ImageBuffer(800, 600);\n        \x7d").data

/-- Matcher for `public override void ProcessFrame\([^)]*\)\s*\{[^}]*\}`
up to and including the opening brace: every component is deterministic
(the starred classes exclude their closing character), so the regex has a
unique match length at a given position.  Returns the length consumed and
the remaining input. -/
def preBody (s : List Char) : Option (Nat × List Char) :=
  match dropLit sigPF s with
  | none => none
  | some r1 =>
    match scanTo ')' r1 with
    | none => none
    | some n2 =>
      match wsOpen (List.drop n2 r1) with
      | none => none
      | some n3 => some (sigPF.length + n2 + n3, List.drop n3 (List.drop n2 r1))

/-- Full match length of the `ProcessFrame` pattern: the body part
`[^}]*\}` ends at the first closing brace after the opening one. -/
def pfMatchLen (s : List Char) : Option Nat :=
  match preBody s with
  | none => none
  | some (k, body) => (scanTo '\x7d' body).map (k + ·)

/-- Nesting-aware body scan: length up to and including the first closing
brace at which the brace nesting returns to depth zero. -/
def balScan : Nat → List Char → Option Nat
  | _, [] => none
  | d, c :: cs =>
    if c = '\x7d' then
      if d = 1 then some 1 else (balScan (d - 1) cs).map (· + 1)
    else if c = '\x7b' then (balScan (d + 1) cs).map (· + 1)
    else (balScan d cs).map (· + 1)

/-- Modelled from the spec's words: a body-matching pattern spans from the
signature "to the first balanced closing delimiter following it" — the
first closing brace at which nesting returns to depth zero.  This is the
spec-side definition compared against `pfMatchLen`, the source-side one. -/
def specBalancedMatchLen (s : List Char) : Option Nat :=
  match preBody s with
  | none => none
  | some (k, body) => (balScan 1 body).map (k + ·)

/-- Matcher for `public override Dictionary<string, object>
GetConfiguration\(\)\s*\{[^}]*\}` (fix.py step 2). -/
def gcMatchLen (s : List Char) : Option Nat :=
  match dropLit sigGC s with
  | none => none
  | some r1 =>
    match wsOpen r1 with
    | none => none
    | some n2 => (scanTo '\x7d' (List.drop n2 r1)).map (sigGC.length + n2 + ·)

/-- Matcher for `public override void ApplyConfiguration\(Dictionary<string,
object> config\)\s*\{[^}]*\}` (fix.py step 3). -/
def acMatchLen (s : List Char) : Option Nat :=
  match dropLit sigAC s with
  | none => none
  | some r1 =>
    match wsOpen r1 with
    | none => none
    | some n2 => (scanTo '\x7d' (List.drop n2 r1)).map (sigAC.length + n2 + ·)

/-- Matcher for `#region Configuration\s*\n\s*\n\s*\n\s*#endregion`
(fix.py step 4).  The chain `\s*\n\s*\n\s*\n\s*` matches exactly the
all-whitespace strings containing at least three newlines, and since `#`
is not whitespace the stretch between the two literals must be the entire
maximal whitespace run after the opening literal; the backtracking search
therefore succeeds iff that run holds three newlines and is followed
immediately by `#endregion`, and the span is then determined. -/
def regionMatchLen (s : List Char) : Option Nat :=
  match dropLit rSig s with
  | none => none
  | some rest =>
    let p := wsRun rest
    if 3 ≤ p.2 ∧ pfx endSig (List.drop p.1 rest) = true then
      some (rSig.length + p.1 + endSig.length)
    else none

/-- Matcher for `#region Configuration\s*\n\s*\n\s*\n\s*$` (fix.py step 4,
trailing variant).  Without `re.MULTILINE`, `$` anchors at the end of the
string (or just before a final newline, which the greedy `\s*` consumes
anyway), so the pattern matches iff everything after the literal is
whitespace containing at least three newlines, and the span runs to the
end of the string. -/
def trailRegionMatchLen (s : List Char) : Option Nat :=
  match dropLit rSig s with
  | none => none
  | some rest =>
    let p := wsRun rest
    if p.1 = rest.length ∧ 3 ≤ p.2 then some (rSig.length + rest.length)
    else none

/-! ### fix.py: transformation, verification, per-file pipeline -/

def fixPyStep1 : List Char → List Char := subAll pfMatchLen replPF

def fixPyStep2 : List Char → List Char := subAll gcMatchLen []

def fixPyStep3 : List Char → List Char := subAll acMatchLen []

def fixPyStep4a : List Char → List Char := subAll regionMatchLen []

def fixPyStep4b : List Char → List Char := subAll trailRegionMatchLen []

/-- fix.py steps 1–4: the substantive rewrite rules, before the final
whitespace normalization.  (`re.sub` is applied only under an `re.search`
guard in the source, but a failed search makes the substitution the
identity, so the guard does not change the content.) -/
def fixPySubstantive (s : List Char) : List Char :=
  fixPyStep4b (fixPyStep4a (fixPyStep3 (fixPyStep2 (fixPyStep1 s))))

def rstripL (s : List Char) : List Char := (s.reverse.dropWhile isPySpace).reverse

def lstripL (s : List Char) : List Char := s.dropWhile isPySpace

def stripL (s : List Char) : List Char := lstripL (rstripL s)

/-- fix.py step 5: `content.rstrip() + '\n'`. -/
def normalizeEnding (s : List Char) : List Char := rstripL s ++ ['\n']

/-- The full fix.py text-to-text transformation. -/
def fixPyContent (s : List Char) : List Char := normalizeEnding (fixPySubstantive s)

inductive Issue where
  | unmatchedRegions
  | incompleteRegion
  | badEnding
deriving DecidableEq

def regionTok : List Char := "#region".data

def endregionTok : List Char := "#endregion".data

def incompleteLit : List Char := "#region Configuration\n\n\n\n#endregion".data

/-- fix.py `verify_file_structure`: all three checks are evaluated and
their findings accumulated; nothing is raised and nothing blocks. -/
def verifyIssues (c : List Char) : List Issue :=
  (if countSub regionTok c = countSub endregionTok c then []
   else [Issue.unmatchedRegions])
  ++ (if occursB incompleteLit c then [Issue.incompleteRegion] else [])
  ++ (if (stripL c).getLast? = some '\x7d' then [] else [Issue.badEnding])

/-- Observable per-file I/O events of one script run on one file. -/
inductive Ev where
  | backup (content : List Char)
  | write (content : List Char)
  | verify (issues : List Issue)
deriving DecidableEq

def isWriteEv : Ev → Bool
  | Ev.write _ => true
  | _ => false

def isBackupEv : Ev → Bool
  | Ev.backup _ => true
  | _ => false

/-- fix.py `fix_effect_file_improved` on a file whose on-disk content is
`d`: if the transformed content differs, copy the original to the backup
(`shutil.copy2` duplicates the still-on-disk original), write the new
content, then verify the written file; otherwise touch nothing. -/
def fixPyProcess (d : List Char) : List Ev :=
  if fixPyContent d = d then []
  else
    [Ev.backup d, Ev.write (fixPyContent d),
     Ev.verify (verifyIssues (fixPyContent d))]

/-! ### fix_simple.py -/

def p1s : List Char := "EffectRegistry.Create(".data

def r1s : List Char := "EffectRegistry.CreateByName(".data

def p2s : List Char := ".Process(f,".data

def r2s : List Char :=
  ".Render(f.Spectrum, f.Spectrum, new RenderContext \x7b Width = _width, Height = _height, Waveform = f.Spectrum, Spectrum = f.Spectrum, Time = f.Time, Beat = f.Beat, Volume = f.Volume, Canvas = ".data

def p3s : List Char := ".Process(f, c)".data

def r3s : List Char :=
  ".Render(f.Spectrum, f.Spectrum, new RenderContext \x7b Width = _width, Height = _height, Waveform = f.Spectrum, Spectrum = f.Spectrum, Time = f.Time, Beat = f.Beat, Volume = f.Volume, Canvas = c \x7d)".data

def p4s : List Char := "Canvas =  canvas);".data

def r4s : List Char := "Canvas = canvas \x7d);".data

def p5s : List Char := "Canvas = c \x7d)".data

def r5s : List Char := "Canvas = c \x7d);".data

/-- fix_simple.py `fix_node_file`: the five `str.replace` calls in source
order. -/
def fixSimpleContent (s : List Char) : List Char :=
  repAll p5s r5s (repAll p4s r4s (repAll p3s r3s (repAll p2s r2s (repAll p1s r1s s))))

/-- fix_simple.py writes the file back unconditionally. -/
def fixSimpleProcess (d : List Char) : List Ev :=
  [Ev.write (fixSimpleContent d)]

/-! ### fix_braces.py -/

def pb1 : List Char := "Canvas = c);".data

def rb1 : List Char := "Canvas = c \x7d);".data

def pb2 : List Char := "Canvas =  canvas);".data

def rb2 : List Char := "Canvas = canvas \x7d);".data

def fixBracesContent (s : List Char) : List Char :=
  repAll pb2 rb2 (repAll pb1 rb1 s)

/-- fix_braces.py writes the file back unconditionally. -/
def fixBracesProcess (d : List Char) : List Ev :=
  [Ev.write (fixBracesContent d)]

/-! ### fix_all_node_canvas_conversions.py -/

def adapterLit : List Char := "SkiaCanvasAdapter".data

def pA1 : List Char := "Canvas = canvas".data

def rA1 : List Char := "Canvas = new SkiaCanvasAdapter(canvas)".data

def pA2 : List Char := "Canvas = c".data

def rA2 : List Char := "Canvas = new SkiaCanvasAdapter(c)".data

def pA3 : List Char := "Canvas=canvas".data

def rA3 : List Char := "Canvas=new SkiaCanvasAdapter(canvas)".data

/-- fix_all `fix_node_file`: skip a file that already mentions the
adapter; otherwise the first of the three literal patterns that occurs is
substituted everywhere (the loop breaks after the first hit) and the file
is marked fixed.  Returns the new content and whether a write happens. -/
def fixAllResult (d : List Char) : List Char × Bool :=
  if occursB adapterLit d then (d, false)
  else if occursB pA1 d then (repAll pA1 rA1 d, true)
  else if occursB pA2 d then (repAll pA2 rA2 d, true)
  else if occursB pA3 d then (repAll pA3 rA3 d, true)
  else (d, false)

def fixAllProcess (d : List Char) : List Ev :=
  if (fixAllResult d).2 then [Ev.write (fixAllResult d).1] else []

/-! ### Batch orchestration

The per-file behaviour of a path in a batch run is abstracted by an
oracle: the path is missing, readable with some content, or its
processing raises an I/O error (read, backup-copy or write failure).
`fixPyMain` and `fixAllMain` call the per-file function with no
try/except around it, so a raised error propagates and ends the loop;
`fix_braces.py` and `fix_simple.py` wrap each file in try/except and
continue. -/

inductive FileSpec where
  | missing
  | ok (content : List Char)
  | ioError
deriving DecidableEq

inductive Outcome where
  | notFound
  | done (trace : List Ev)
  | failed
deriving DecidableEq

/-- fix.py `main`: existence is checked per file, but nothing catches an
exception from `fix_effect_file_improved`, so an error aborts the rest of
the batch. -/
def fixPyMain : List FileSpec → List Outcome
  | [] => []
  | FileSpec.missing :: rest => Outcome.notFound :: fixPyMain rest
  | FileSpec.ok d :: rest => Outcome.done (fixPyProcess d) :: fixPyMain rest
  | FileSpec.ioError :: _ => [Outcome.failed]

/-- fix_braces.py `main`: each file is processed inside try/except, so a
failure (missing file or I/O error) is recorded and the loop continues. -/
def fixBracesMain : List FileSpec → List Outcome
  | [] => []
  | FileSpec.missing :: rest => Outcome.failed :: fixBracesMain rest
  | FileSpec.ok d :: rest => Outcome.done (fixBracesProcess d) :: fixBracesMain rest
  | FileSpec.ioError :: rest => Outcome.failed :: fixBracesMain rest

/-- fix_simple.py `main`: same try/except-per-file loop as fix_braces.py. -/
def fixSimpleMain : List FileSpec → List Outcome
  | [] => []
  | FileSpec.missing :: rest => Outcome.failed :: fixSimpleMain rest
  | FileSpec.ok d :: rest => Outcome.done (fixSimpleProcess d) :: fixSimpleMain rest
  | FileSpec.ioError :: rest => Outcome.failed :: fixSimpleMain rest

/-- fix_all `main`: missing paths are skipped with a message, but the
per-file call has no try/except, so an error aborts the rest. -/
def fixAllMain : List FileSpec → List Outcome
  | [] => []
  | FileSpec.missing :: rest => Outcome.notFound :: fixAllMain rest
  | FileSpec.ok d :: rest => Outcome.done (fixAllProcess d) :: fixAllMain rest
  | FileSpec.ioError :: _ => [Outcome.failed]

/-- The per-file outcome function that `fixBracesMain` realises pointwise. -/
def fixBracesOutcome : FileSpec → Outcome
  | FileSpec.missing => Outcome.failed
  | FileSpec.ok d => Outcome.done (fixBracesProcess d)
  | FileSpec.ioError => Outcome.failed

/-- The per-file outcome function that `fixSimpleMain` realises pointwise. -/
def fixSimpleOutcome : FileSpec → Outcome
  | FileSpec.missing => Outcome.failed
  | FileSpec.ok d => Outcome.done (fixSimpleProcess d)
  | FileSpec.ioError => Outcome.failed

example : fixSimpleContent ("Canvas = c \x7d)".data) = "Canvas = c \x7d);".data := by decide
example : fixBracesContent ("int x = 1;".data) = "int x = 1;".data := by decide
example : (fixAllResult ("Canvas = c".data)).1 = "Canvas = new SkiaCanvasAdapter(c)".data := by decide

/-! ### Basic facts about `pfx`, `Occ` and the scanners -/

theorem pfx_nil_false (p : List Char) (hp : p ≠ []) : pfx p [] = false := by
  cases p with
  | nil => exact absurd rfl hp
  | cons a as => rfl

theorem pfx_append_self (p w : List Char) : pfx p (p ++ w) = true :=
  (pfx_iff p (p ++ w)).mpr ⟨w, rfl⟩

theorem pfx_self (p : List Char) : pfx p p = true := by
  have := pfx_append_self p []
  simpa using this

theorem Pfx.length_le {u v : List Char} (h : Pfx u v) : u.length ≤ v.length := by
  rcases h with ⟨w, rfl⟩
  simp

theorem Pfx.eq_of_length_le {u v : List Char} (h : Pfx u v)
    (hl : v.length ≤ u.length) : u = v := by
  rcases h with ⟨w, rfl⟩
  simp at hl
  subst hl
  simp

/-- If `u` is a prefix of `q ++ c`, then either `u` fits inside `q` or
`q` is a prefix of `u`. -/
theorem pfx_split (u q c : List Char) (h : pfx u (q ++ c) = true) :
    pfx u q = true ∨ pfx q u = true := by
  induction u generalizing q with
  | nil => exact Or.inl rfl
  | cons x u2 ih =>
    cases q with
    | nil => exact Or.inr rfl
    | cons y q2 =>
      simp only [List.cons_append, pfx] at h ⊢
      split at h
      · rename_i hxy
        cases hxy
        rcases ih q2 h with h2 | h2
        · exact Or.inl (by simpa [pfx] using h2)
        · exact Or.inr (by simpa [pfx] using h2)
      · exact absurd h (by simp)

theorem occ_cons (p : List Char) (c : Char) (cs : List Char)
    (h : Occ p (c :: cs)) : pfx p (c :: cs) = true ∨ Occ p cs := by
  rcases h with ⟨a, b, hab⟩
  cases a with
  | nil =>
    left
    exact (pfx_iff _ _).mpr ⟨b, by simpa using hab⟩
  | cons a0 a2 =>
    right
    simp only [List.cons_append, List.cons.injEq] at hab
    exact ⟨a2, b, hab.2⟩

theorem occ_nil_false (p : List Char) (hp : p ≠ []) : ¬ Occ p [] := by
  rintro ⟨a, b, hab⟩
  have := congrArg List.length hab
  simp at this
  exact hp (List.length_eq_zero.mp (by omega))

/-- An occurrence inside a part gives an occurrence in any extension. -/
theorem occ_of_part {q u : List Char} (h : Occ q u) (a b : List Char) :
    Occ q (a ++ u ++ b) := by
  rcases h with ⟨x, y, rfl⟩
  exact ⟨a ++ x, y ++ b, by simp⟩

theorem drop_append_le {α : Type} (n : Nat) :
    ∀ (u v : List α), n ≤ u.length → (u ++ v).drop n = u.drop n ++ v := by
  induction n with
  | zero => intro u v _; rfl
  | succ m ih =>
    intro u v h
    cases u with
    | nil => simp at h
    | cons x u2 =>
      simp only [List.cons_append, List.drop_succ_cons]
      exact ih u2 v (by simpa using h)

theorem repAllAux_skip (p r : List Char) :
    ∀ (cs : List Char) (k : Nat), repAllAux p r cs k = repAll p r (List.drop k cs) := by
  intro cs
  induction cs with
  | nil => intro k; cases k <;> rfl
  | cons c cs2 ih =>
    intro k
    cases k with
    | zero => rfl
    | succ k2 => simpa [repAllAux, List.drop_succ_cons] using ih k2

theorem repAll_nil (p r : List Char) : repAll p r [] = [] := rfl

/-- The replacement equation: at a match, emit `r` and resume after the
matched literal. -/
theorem repAll_pos (p r : List Char) (hp : p ≠ []) (w : List Char) :
    repAll p r (p ++ w) = r ++ repAll p r w := by
  cases p with
  | nil => exact absurd rfl hp
  | cons a as =>
    have hm : pfx (a :: as) (a :: (as ++ w)) = true := by
      simpa using pfx_append_self (a :: as) w
    show repAllAux (a :: as) r (a :: (as ++ w)) 0 = _
    simp only [repAllAux]
    rw [if_pos hm]
    have hlen : (a :: as).length - 1 = as.length := by simp
    rw [hlen, repAllAux_skip, List.drop_left]

theorem repAll_neg (p r : List Char) (c : Char) (cs : List Char)
    (h : pfx p (c :: cs) = false) :
    repAll p r (c :: cs) = c :: repAll p r cs := by
  show repAllAux p r (c :: cs) 0 = _
  rw [repAllAux, if_neg (by simp [h])]
  rfl

/-! ### Side-condition checkers for the rewriting lemmas

All of them are decidable scans over the concrete pattern/replacement
pair, so at use sites they are discharged by `decide`. -/

/-- No suffix of `q` (equivalently: no position inside `q`) can start a
match of `p`, whatever follows `q`: for every nonempty suffix `d` of `q`,
neither is `p` a prefix of `d` nor `d` a prefix of `p`. -/
def noStartInB (p : List Char) : List Char → Bool
  | [] => true
  | c :: cs => !(pfx p (c :: cs)) && !(pfx (c :: cs) p) && noStartInB p cs

/-- No proper nonempty suffix of `p` can continue into `q`: for each such
suffix `d`, neither is `d` a prefix of `q` nor `q` a prefix of `d`. -/
def tailsNoOv (q : List Char) : List Char → Bool
  | [] => true
  | _ :: ps => (decide (ps = []) || (!(pfx ps q) && !(pfx q ps))) && tailsNoOv q ps

theorem tailsNoOv_spec (q : List Char) :
    ∀ (p : List Char), tailsNoOv q p = true →
      ∀ k, 0 < k → k < p.length →
        pfx (p.drop k) q = false ∧ pfx q (p.drop k) = false := by
  intro p
  induction p with
  | nil => intro _ k _ hk; simp at hk
  | cons c ps ih =>
    intro h k hk0 hk1
    simp only [tailsNoOv, Bool.and_eq_true] at h
    obtain ⟨hhead, htail⟩ := h
    cases k with
    | zero => simp at hk0
    | succ k2 =>
      simp only [List.drop_succ_cons]
      cases k2 with
      | zero =>
        have hne : ps ≠ [] := by
          intro hcontra
          subst hcontra
          simp at hk1
        simp only [decide_eq_true_eq, Bool.or_eq_true, Bool.and_eq_true,
          Bool.not_eq_true'] at hhead
        rcases hhead with h1 | h2
        · exact absurd h1 hne
        · simpa using h2
      | succ k3 =>
        exact ih htail (k3 + 1) (by omega) (by simp at hk1 ⊢; omega)

/-- Scanning across `q` performs no replacement when no position inside
`q` can start a match. -/
theorem repAll_walk (p r : List Char) :
    ∀ (q c : List Char), noStartInB p q = true →
      repAll p r (q ++ c) = q ++ repAll p r c := by
  intro q
  induction q with
  | nil => intro c _; rfl
  | cons q0 q2 ih =>
    intro c h
    simp only [noStartInB, Bool.and_eq_true, Bool.not_eq_true'] at h
    obtain ⟨⟨h1, h2⟩, h3⟩ := h
    have hnm : pfx p ((q0 :: q2) ++ c) = false := by
      cases hcase : pfx p ((q0 :: q2) ++ c) with
      | false => rfl
      | true =>
        rcases pfx_split p (q0 :: q2) c hcase with hx | hx
        · rw [h1] at hx; exact absurd hx (by simp)
        · rw [h2] at hx; exact absurd hx (by simp)
    rw [List.cons_append, repAll_neg p r q0 (q2 ++ c) (by simpa using hnm),
      ih c h3]
    rfl

/-- Occurrence preservation: if no match of `p` can start inside `q` and
no match begun strictly before `q` can continue into it, then `repAll`
keeps an occurrence of `q` intact. -/
theorem repAll_preserves (p q r : List Char) (hp : p ≠ [])
    (h1 : noStartInB p q = true) (h2 : tailsNoOv q p = true) :
    ∀ (a c : List Char), ∃ a2 c2,
      repAll p r (a ++ (q ++ c)) = a2 ++ (q ++ c2) := by
  have hp1 : 1 ≤ p.length := by
    cases p with
    | nil => exact absurd rfl hp
    | cons x xs => simp
  have main : ∀ (N : Nat) (a c : List Char), a.length ≤ N →
      ∃ a2 c2, repAll p r (a ++ (q ++ c)) = a2 ++ (q ++ c2) := by
    intro N
    induction N with
    | zero =>
      intro a c hlen
      have : a = [] := List.length_eq_zero.mp (Nat.le_antisymm hlen (Nat.zero_le _))
      subst this
      exact ⟨[], repAll p r c, by simpa using repAll_walk p r q c h1⟩
    | succ n ih =>
      intro a c hlen
      cases a with
      | nil =>
        exact ⟨[], repAll p r c, by simpa using repAll_walk p r q c h1⟩
      | cons a0 a2 =>
        by_cases hm : pfx p ((a0 :: a2) ++ (q ++ c)) = true
        · obtain ⟨w, hw⟩ := (pfx_iff _ _).mp hm
          by_cases hpa : p.length ≤ (a0 :: a2).length
          · have hwval : w = (a0 :: a2).drop p.length ++ (q ++ c) := by
              have hcd := congrArg (List.drop p.length) hw
              rw [List.drop_left] at hcd
              rw [← hcd, drop_append_le p.length (a0 :: a2) (q ++ c) hpa]
            obtain ⟨a3, c4, hc4⟩ := ih ((a0 :: a2).drop p.length) c
              (by simp [List.length_drop] at hlen hpa ⊢; omega)
            refine ⟨r ++ a3, c4, ?_⟩
            rw [hw, repAll_pos p r hp w, hwval, hc4]
            simp [List.append_assoc]
          · exfalso
            have hlt : (a0 :: a2).length < p.length := by omega
            have hdrop := congrArg (List.drop (a0 :: a2).length) hw
            rw [List.drop_left] at hdrop
            rw [drop_append_le (a0 :: a2).length p w (Nat.le_of_lt hlt)] at hdrop
            have hqc : Pfx (p.drop (a0 :: a2).length) (q ++ c) :=
              ⟨w, by rw [hdrop]⟩
            rcases pfx_split _ q c ((pfx_iff _ _).mpr hqc) with hx | hx
            · have hz := (tailsNoOv_spec q p h2 (a0 :: a2).length (by simp) hlt).1
              rw [hz] at hx
              exact absurd hx (by simp)
            · have hz := (tailsNoOv_spec q p h2 (a0 :: a2).length (by simp) hlt).2
              rw [hz] at hx
              exact absurd hx (by simp)
        · have hm' : pfx p (a0 :: (a2 ++ (q ++ c))) = false := by
            cases hval : pfx p (a0 :: (a2 ++ (q ++ c))) with
            | false => rfl
            | true => exact absurd (by simpa using hval) hm
          obtain ⟨a3, c3, hc3⟩ := ih a2 c (by simp at hlen; omega)
          refine ⟨a0 :: a3, c3, ?_⟩
          have heq := repAll_neg p r a0 (a2 ++ (q ++ c)) hm'
          calc repAll p r ((a0 :: a2) ++ (q ++ c))
              = a0 :: repAll p r (a2 ++ (q ++ c)) := heq
            _ = a0 :: (a3 ++ (q ++ c3)) := by rw [hc3]
            _ = (a0 :: a3) ++ (q ++ c3) := rfl
  intro a c
  exact main a.length a c (Nat.le_refl _)

/-- Occurrence creation: at an occurrence of `p` followed by `t`, the
replacement emits `r` and the scan then walks through `t` untouched, so
the output contains `r ++ t`.  Needs: no match can start inside `t`, and
no proper suffix of `p` can restart a match of `p` (so a match cannot
begin strictly inside the occurrence of `p`). -/
theorem repAll_creates (p r t : List Char) (hp : p ≠ [])
    (ht : noStartInB p t = true) (hself : tailsNoOv p p = true) :
    ∀ (a c : List Char), ∃ a2 c2,
      repAll p r (a ++ ((p ++ t) ++ c)) = a2 ++ ((r ++ t) ++ c2) := by
  have hp1 : 1 ≤ p.length := by
    cases p with
    | nil => exact absurd rfl hp
    | cons x xs => simp
  have base : ∀ c : List Char,
      repAll p r ((p ++ t) ++ c) = (r ++ t) ++ repAll p r c := by
    intro c
    have h1 : (p ++ t) ++ c = p ++ (t ++ c) := by simp
    rw [h1, repAll_pos p r hp (t ++ c), repAll_walk p r t c ht]
    simp
  have main : ∀ (N : Nat) (a c : List Char), a.length ≤ N →
      ∃ a2 c2, repAll p r (a ++ ((p ++ t) ++ c)) = a2 ++ ((r ++ t) ++ c2) := by
    intro N
    induction N with
    | zero =>
      intro a c hlen
      have : a = [] := List.length_eq_zero.mp (Nat.le_antisymm hlen (Nat.zero_le _))
      subst this
      exact ⟨[], repAll p r c, by simpa using base c⟩
    | succ n ih =>
      intro a c hlen
      cases a with
      | nil => exact ⟨[], repAll p r c, by simpa using base c⟩
      | cons a0 a2 =>
        by_cases hm : pfx p ((a0 :: a2) ++ ((p ++ t) ++ c)) = true
        · obtain ⟨w, hw⟩ := (pfx_iff _ _).mp hm
          by_cases hpa : p.length ≤ (a0 :: a2).length
          · have hwval : w = (a0 :: a2).drop p.length ++ ((p ++ t) ++ c) := by
              have hcd := congrArg (List.drop p.length) hw
              rw [List.drop_left] at hcd
              rw [← hcd, drop_append_le p.length (a0 :: a2) ((p ++ t) ++ c) hpa]
            obtain ⟨a3, c4, hc4⟩ := ih ((a0 :: a2).drop p.length) c
              (by simp [List.length_drop] at hlen hpa ⊢; omega)
            refine ⟨r ++ a3, c4, ?_⟩
            rw [hw, repAll_pos p r hp w, hwval, hc4]
            simp [List.append_assoc]
          · exfalso
            have hlt : (a0 :: a2).length < p.length := by omega
            have hdrop := congrArg (List.drop (a0 :: a2).length) hw
            rw [List.drop_left] at hdrop
            rw [drop_append_le (a0 :: a2).length p w (Nat.le_of_lt hlt)] at hdrop
            have hppf : Pfx (p.drop (a0 :: a2).length) (p ++ (t ++ c)) :=
              ⟨w, by rw [← List.append_assoc, hdrop]⟩
            rcases pfx_split _ p (t ++ c) ((pfx_iff _ _).mpr hppf) with hx | hx
            · have hz := (tailsNoOv_spec p p hself (a0 :: a2).length (by simp) hlt).1
              rw [hz] at hx
              exact absurd hx (by simp)
            · have hlen2 := Pfx.length_le ((pfx_iff _ _).mp hx)
              simp [List.length_drop] at hlen2
              omega
        · have hm' : pfx p (a0 :: (a2 ++ ((p ++ t) ++ c))) = false := by
            cases hval : pfx p (a0 :: (a2 ++ ((p ++ t) ++ c))) with
            | false => rfl
            | true => exact absurd (by simpa using hval) hm
          obtain ⟨a3, c3, hc3⟩ := ih a2 c (by simp at hlen; omega)
          refine ⟨a0 :: a3, c3, ?_⟩
          calc repAll p r ((a0 :: a2) ++ ((p ++ t) ++ c))
              = a0 :: repAll p r (a2 ++ ((p ++ t) ++ c)) :=
                repAll_neg p r a0 (a2 ++ ((p ++ t) ++ c)) hm'
            _ = a0 :: (a3 ++ ((r ++ t) ++ c3)) := by rw [hc3]
            _ = (a0 :: a3) ++ ((r ++ t) ++ c3) := rfl
  intro a c
  exact main a.length a c (Nat.le_refl _)

/-- `str.replace` is the identity when the pattern does not occur. -/
theorem repAll_id (p r : List Char) :
    ∀ y, occursB p y = false → repAll p r y = y := by
  intro y
  induction y with
  | nil => intro _; rfl
  | cons c cs ih =>
    intro h
    simp only [occursB, Bool.or_eq_false_iff] at h
    rw [repAll_neg p r c cs h.1, ih h.2]

/-- When the pattern occurs, the replacement text appears in the output. -/
theorem repAll_inserts (p r : List Char) (hp : p ≠ []) :
    ∀ y, occursB p y = true → ∃ a b, repAll p r y = a ++ r ++ b := by
  intro y
  induction y with
  | nil =>
    intro h
    rw [show occursB p [] = pfx p [] from rfl, pfx_nil_false p hp] at h
    exact absurd h (by simp)
  | cons c cs ih =>
    intro h
    by_cases hm : pfx p (c :: cs) = true
    · obtain ⟨w, hw⟩ := (pfx_iff _ _).mp hm
      rw [hw, repAll_pos p r hp w]
      exact ⟨[], repAll p r w, by simp⟩
    · have hm' : pfx p (c :: cs) = false := by
        cases hval : pfx p (c :: cs) with
        | false => rfl
        | true => exact absurd hval hm
      have hcs : occursB p cs = true := by
        simp only [occursB, hm', Bool.false_or] at h
        exact h
      obtain ⟨a, b, hab⟩ := ih hcs
      exact ⟨c :: a, b, by rw [repAll_neg p r c cs hm', hab]; rfl⟩

/-! ### Elimination: after `repAll p r`, no occurrence of `p` remains -/

/-- `u` is a suffix of `v`. -/
def sfxB (u v : List Char) : Bool := pfx u.reverse v.reverse

theorem sfxB_iff (u v : List Char) : sfxB u v = true ↔ ∃ w, v = w ++ u := by
  constructor
  · intro h
    rcases (pfx_iff _ _).mp h with ⟨w, hw⟩
    refine ⟨w.reverse, ?_⟩
    have := congrArg List.reverse hw
    simpa [List.reverse_append] using this
  · rintro ⟨w, rfl⟩
    exact (pfx_iff _ _).mpr ⟨w.reverse, by simp [List.reverse_append]⟩

/-- Checks that no nonempty proper prefix of `p` (a `p.take k` for
`0 < k < p.length`) is a suffix of `r`. -/
def noTakeSfxAux (p r : List Char) : Nat → Bool
  | 0 => true
  | Nat.succ k => !(sfxB (p.take (k + 1)) r) && noTakeSfxAux p r k

def noTakeSfxB (p r : List Char) : Bool := noTakeSfxAux p r (p.length - 1)

theorem noTakeSfxAux_spec (p r : List Char) :
    ∀ n, noTakeSfxAux p r n = true →
      ∀ k, 0 < k → k ≤ n → sfxB (p.take k) r = false := by
  intro n
  induction n with
  | zero => intro _ k hk0 hkn; omega
  | succ m ih =>
    intro h k hk0 hkn
    simp only [noTakeSfxAux, Bool.and_eq_true, Bool.not_eq_true'] at h
    rcases Nat.lt_or_ge k (m + 1) with hlt | hge
    · exact ih h.2 k hk0 (by omega)
    · have : k = m + 1 := by omega
      subst this
      exact h.1

theorem noTakeSfxB_spec (p r : List Char) (h : noTakeSfxB p r = true) :
    ∀ k, 0 < k → k < p.length → sfxB (p.take k) r = false := by
  intro k hk0 hk1
  exact noTakeSfxAux_spec p r (p.length - 1) h k hk0 (by omega)

/-- Checks that no nonempty proper suffix of `p` (a `p.drop k` for
`0 < k < p.length`) is a prefix of `r`. -/
def noDropPfxAux (p r : List Char) : Nat → Bool
  | 0 => true
  | Nat.succ k => !(pfx (p.drop (k + 1)) r) && noDropPfxAux p r k

def noDropPfxB (p r : List Char) : Bool := noDropPfxAux p r (p.length - 1)

theorem noDropPfxAux_spec (p r : List Char) :
    ∀ n, noDropPfxAux p r n = true →
      ∀ k, 0 < k → k ≤ n → pfx (p.drop k) r = false := by
  intro n
  induction n with
  | zero => intro _ k hk0 hkn; omega
  | succ m ih =>
    intro h k hk0 hkn
    simp only [noDropPfxAux, Bool.and_eq_true, Bool.not_eq_true'] at h
    rcases Nat.lt_or_ge k (m + 1) with hlt | hge
    · exact ih h.2 k hk0 (by omega)
    · have : k = m + 1 := by omega
      subst this
      exact h.1

theorem noDropPfxB_spec (p r : List Char) (h : noDropPfxB p r = true) :
    ∀ k, 0 < k → k < p.length → pfx (p.drop k) r = false := by
  intro k hk0 hk1
  exact noDropPfxAux_spec p r (p.length - 1) h k hk0 (by omega)

/-- An occurrence in `u ++ v` lies inside `u`, inside `v`, or straddles
the seam: a nonempty proper prefix of `p` is a suffix of `u` and the
matching remainder of `p` is a prefix of `v`. -/
theorem occ_append_cases (p u v : List Char) (h : Occ p (u ++ v)) :
    Occ p u ∨ Occ p v ∨
      ∃ k, 0 < k ∧ k < p.length ∧ (∃ a, u = a ++ p.take k) ∧
        pfx (p.drop k) v = true := by
  rcases h with ⟨a, b, hab⟩
  rcases Nat.lt_or_ge a.length u.length with ha | ha
  · rcases le_or_lt (a.length + p.length) u.length with hfit | hfit
    · -- the occurrence fits inside u
      left
      have hu : u = (u ++ v).take u.length := by rw [List.take_left]
      rw [hab, List.append_assoc, List.take_append_eq_append_take] at hu
      have ht1 : a.take u.length = a := List.take_of_length_le (by omega)
      rw [ht1, List.take_append_eq_append_take] at hu
      have ht2 : p.take (u.length - a.length) = p :=
        List.take_of_length_le (by omega)
      rw [ht2] at hu
      exact ⟨a, b.take (u.length - a.length - p.length), by rw [hu]; simp⟩
    · -- straddle
      right; right
      refine ⟨u.length - a.length, by omega, by omega, ⟨a, ?_⟩, ?_⟩
      · have hu : u = (u ++ v).take u.length := by rw [List.take_left]
        rw [hab, List.append_assoc, List.take_append_eq_append_take] at hu
        have ht1 : a.take u.length = a := List.take_of_length_le (by omega)
        rw [ht1, List.take_append_eq_append_take] at hu
        have ht2 : b.take (u.length - a.length - p.length) = [] := by
          have hz : u.length - a.length - p.length = 0 := by omega
          rw [hz]
          rfl
        rw [ht2] at hu
        simpa using hu
      · have hv : v = (u ++ v).drop u.length := by rw [List.drop_left]
        rw [hab, List.append_assoc, List.drop_append_eq_append_drop] at hv
        have hd1 : a.drop u.length = [] := List.drop_eq_nil_of_le (by omega)
        rw [hd1, List.drop_append_eq_append_drop] at hv
        have hd2 : b.drop (u.length - a.length - p.length) = b := by
          have hz : u.length - a.length - p.length = 0 := by omega
          rw [hz, List.drop_zero]
        rw [hd2] at hv
        simp only [List.nil_append] at hv
        exact (pfx_iff _ _).mpr ⟨b, hv⟩
  · -- the occurrence lies inside v
    right; left
    have hv : v = (u ++ v).drop u.length := by rw [List.drop_left]
    rw [hab, List.append_assoc, List.drop_append_eq_append_drop] at hv
    have hd2 : (p ++ b).drop (u.length - a.length) = p ++ b := by
      have hz : u.length - a.length = 0 := by omega
      rw [hz, List.drop_zero]
    rw [hd2] at hv
    exact ⟨a.drop u.length, b, by rw [hv, List.append_assoc]⟩

theorem occursB_self (p : List Char) (hp : p ≠ []) : occursB p p = true := by
  cases p with
  | nil => exact absurd rfl hp
  | cons c cs => simp [occursB, pfx_self]

/-- Main elimination invariant, by strong induction on the input length:
(1) a suffix of `p` can be a prefix of the output only if it was already a
prefix of the input (so the scan loses no pending partial match), and
(2) the output contains no occurrence of `p`.  Side conditions: `p` does
not occur in `r`, is no longer than `r`, no nonempty proper prefix of `p`
is a suffix of `r`, and no nonempty proper suffix of `p` is a prefix of
`r`. -/
theorem repAll_elim_main (p r : List Char) (hp : p ≠ [])
    (hlen : p.length ≤ r.length) (hnr : occursB p r = false)
    (hg2 : noTakeSfxB p r = true) (hg3 : noDropPfxB p r = true) :
    ∀ (N : Nat) (y : List Char), y.length ≤ N →
      ((∀ m, m < p.length → pfx (p.drop m) (repAll p r y) = true →
          pfx (p.drop m) y = true)
        ∧ occursB p (repAll p r y) = false) := by
  have hp1 : 1 ≤ p.length := by
    cases p with
    | nil => exact absurd rfl hp
    | cons x xs => simp
  have nilcase : (∀ m, m < p.length → pfx (p.drop m) (repAll p r []) = true →
      pfx (p.drop m) [] = true) ∧ occursB p (repAll p r []) = false := by
    constructor
    · intro m _ h
      exact h
    · rw [repAll_nil]
      simpa [occursB] using pfx_nil_false p hp
  intro N
  induction N with
  | zero =>
    intro y hlen0
    have : y = [] := List.length_eq_zero.mp (Nat.le_antisymm hlen0 (Nat.zero_le _))
    subst this
    exact nilcase
  | succ n ih =>
    intro y hylen
    cases y with
    | nil => exact nilcase
    | cons c cs =>
      by_cases hm : pfx p (c :: cs) = true
      · obtain ⟨w, hw⟩ := (pfx_iff _ _).mp hm
        have hrw : repAll p r (c :: cs) = r ++ repAll p r w := by
          rw [hw, repAll_pos p r hp w]
        have hwlen : w.length ≤ n := by
          have := congrArg List.length hw
          simp at this hylen
          omega
        obtain ⟨ihInv, ihNo⟩ := ih w hwlen
        constructor
        · intro m hm2 hpfx
          exfalso
          rw [hrw] at hpfx
          rcases pfx_split (p.drop m) r (repAll p r w) hpfx with hx | hx
          · rcases Nat.eq_zero_or_pos m with hm0 | hm0
            · subst hm0
              simp only [List.drop_zero] at hx
              have hoc : Occ p r := by
                rcases (pfx_iff _ _).mp hx with ⟨w2, hw2⟩
                exact ⟨[], w2, by simpa using hw2⟩
              rw [(occursB_iff _ _).mpr hoc] at hnr
              exact absurd hnr (by simp)
            · rw [noDropPfxB_spec p r hg3 m hm0 hm2] at hx
              exact absurd hx (by simp)
          · have h1 := Pfx.length_le ((pfx_iff _ _).mp hx)
            have hm0 : m = 0 := by
              simp [List.length_drop] at h1
              omega
            subst hm0
            simp only [List.drop_zero] at hx
            have hrp : r = p :=
              Pfx.eq_of_length_le ((pfx_iff _ _).mp hx) hlen
            rw [hrp, occursB_self p hp] at hnr
            exact absurd hnr (by simp)
        · rw [hrw]
          cases hocc : occursB p (r ++ repAll p r w) with
          | false => rfl
          | true =>
            exfalso
            rcases occ_append_cases p r (repAll p r w)
              ((occursB_iff _ _).mp hocc) with hc1 | hc2 | hc3
            · rw [(occursB_iff _ _).mpr hc1] at hnr
              exact absurd hnr (by simp)
            · rw [(occursB_iff _ _).mpr hc2] at ihNo
              exact absurd ihNo (by simp)
            · rcases hc3 with ⟨k, hk0, hk1, ⟨a, ha⟩, _⟩
              have hsfx : sfxB (p.take k) r = true := (sfxB_iff _ _).mpr ⟨a, ha⟩
              rw [noTakeSfxB_spec p r hg2 k hk0 hk1] at hsfx
              exact absurd hsfx (by simp)
      · have hm' : pfx p (c :: cs) = false := by
          cases hval : pfx p (c :: cs) with
          | false => rfl
          | true => exact absurd hval hm
        have hrw : repAll p r (c :: cs) = c :: repAll p r cs :=
          repAll_neg p r c cs hm'
        obtain ⟨ihInv, ihNo⟩ := ih cs (by simp at hylen; omega)
        have hInv : ∀ m, m < p.length →
            pfx (p.drop m) (repAll p r (c :: cs)) = true →
            pfx (p.drop m) (c :: cs) = true := by
          intro m hm2 hpfx
          rw [hrw] at hpfx
          cases hd : p.drop m with
          | nil =>
            exfalso
            have := congrArg List.length hd
            simp [List.length_drop] at this
            omega
          | cons d ds =>
            rw [hd] at hpfx
            have hds : ds = p.drop (m + 1) := by
              have hdd : (p.drop m).drop 1 = p.drop (m + 1) := List.drop_drop 1 m p
              rw [hd] at hdd
              simpa using hdd
            simp only [pfx] at hpfx
            split at hpfx
            · rename_i hdc
              subst hdc
              simp only [pfx, if_pos rfl]
              rcases Nat.lt_or_ge (m + 1) p.length with hlt | hge
              · have := ihInv (m + 1) hlt (by rw [← hds]; exact hpfx)
                rw [← hds] at this
                exact this
              · have : ds = [] := by
                  rw [hds]
                  exact List.drop_eq_nil_of_le (by omega)
                subst this
                rfl
            · exact absurd hpfx (by simp)
        refine ⟨hInv, ?_⟩
        rw [hrw]
        have h2 : occursB p (repAll p r cs) = false := ihNo
        have h1 : pfx p (c :: repAll p r cs) = false := by
          cases hval : pfx p (c :: repAll p r cs) with
          | false => rfl
          | true =>
            have := hInv 0 (by omega) (by
              rw [hrw]
              simpa [List.drop_zero] using hval)
            simp only [List.drop_zero] at this
            rw [this] at hm'
            exact absurd hm' (by simp)
        simp [occursB, h1, h2]

/-- After `repAll p r`, the pattern `p` no longer occurs (under the side
conditions of `repAll_elim_main`). -/
theorem repAll_elim (p r : List Char) (hp : p ≠ [])
    (hlen : p.length ≤ r.length) (hnr : occursB p r = false)
    (hg2 : noTakeSfxB p r = true) (hg3 : noDropPfxB p r = true)
    (y : List Char) : occursB p (repAll p r y) = false :=
  (repAll_elim_main p r hp hlen hnr hg2 hg3 y.length y (Nat.le_refl _)).2

/-! ### Equations and search lemmas for `subAll` -/

theorem subAllAux_skip (m : List Char → Option Nat) (r : List Char) :
    ∀ (cs : List Char) (k : Nat),
      subAllAux m r cs k = subAll m r (List.drop k cs) := by
  intro cs
  induction cs with
  | nil => intro k; cases k <;> rfl
  | cons c cs2 ih =>
    intro k
    cases k with
    | zero => rfl
    | succ k2 => simpa [subAllAux, List.drop_succ_cons] using ih k2

theorem subAll_nil (m : List Char → Option Nat) (r : List Char) :
    subAll m r [] = [] := rfl

theorem subAll_match (m : List Char → Option Nat) (r : List Char)
    (c : Char) (cs : List Char) (n : Nat) (h : m (c :: cs) = some n)
    (hn : 1 ≤ n) :
    subAll m r (c :: cs) = r ++ subAll m r (List.drop n (c :: cs)) := by
  show subAllAux m r (c :: cs) 0 = _
  simp only [subAllAux, h]
  rw [subAllAux_skip]
  congr 1
  cases n with
  | zero => omega
  | succ n2 => simp [List.drop_succ_cons]

theorem subAll_nomatch (m : List Char → Option Nat) (r : List Char)
    (c : Char) (cs : List Char) (h : m (c :: cs) = none) :
    subAll m r (c :: cs) = c :: subAll m r cs := by
  show subAllAux m r (c :: cs) 0 = _
  simp only [subAllAux, h]
  rfl

/-- The total search: does the matcher succeed at some position?  This is
`re.search` for a matcher with deterministic per-position behaviour. -/
def searchB (m : List Char → Option Nat) : List Char → Bool
  | [] => false
  | c :: cs => (m (c :: cs)).isSome || searchB m cs

/-- Fuelled variant of the search loop: `none` models the engine failing
to finish within its step budget (an abnormal termination). -/
def searchF (m : List Char → Option Nat) : Nat → List Char → Option Bool
  | 0, _ => none
  | _ + 1, [] => some false
  | fuel + 1, c :: cs =>
    if (m (c :: cs)).isSome then some true else searchF m fuel cs

theorem searchF_complete (m : List Char → Option Nat) :
    ∀ (s : List Char) (fuel : Nat), s.length < fuel →
      searchF m fuel s = some (searchB m s) := by
  intro s
  induction s with
  | nil =>
    intro fuel hf
    cases fuel with
    | zero => omega
    | succ f2 => rfl
  | cons c cs ih =>
    intro fuel hf
    cases fuel with
    | zero => simp at hf
    | succ f2 =>
      simp only [searchF, searchB]
      cases hm : (m (c :: cs)).isSome with
      | true => simp [hm]
      | false =>
        rw [if_neg (by simp [hm])]
        simp only [Bool.false_or]
        exact ih f2 (by simp at hf; omega)

/-- If the matcher succeeds somewhere, the substitution inserts a copy of
the replacement into the output. -/
theorem subAll_inserts (m : List Char → Option Nat) (r : List Char) :
    ∀ y, searchB m y = true → ∃ a b, subAll m r y = a ++ r ++ b := by
  intro y
  induction y with
  | nil => intro h; simp [searchB] at h
  | cons c cs ih =>
    intro h
    cases hm : m (c :: cs) with
    | some n =>
      rcases Nat.eq_zero_or_pos n with hn | hn
      · subst hn
        refine ⟨[], subAllAux m r cs 0, ?_⟩
        show subAllAux m r (c :: cs) 0 = _
        simp [subAllAux, hm]
      · rw [subAll_match m r c cs n hm hn]
        exact ⟨[], subAll m r (List.drop n (c :: cs)), by simp⟩
    | none =>
      simp only [searchB, hm, Option.isSome_none, Bool.false_or] at h
      obtain ⟨a, b, hab⟩ := ih h
      exact ⟨c :: a, b, by rw [subAll_nomatch m r c cs hm, hab]; rfl⟩

/-- A literal pattern as a matcher (the implicit matcher of `str.replace`
and of `re.search` on a literal regex). -/
def litMatch (p : List Char) (s : List Char) : Option Nat :=
  if pfx p s then some p.length else none

/-- The pattern catalog: every matcher any of the four scripts ever runs
against file content. -/
def matcherCatalog : List (List Char → Option Nat) :=
  [pfMatchLen, gcMatchLen, acMatchLen, regionMatchLen, trailRegionMatchLen,
   litMatch p1s, litMatch p2s, litMatch p3s, litMatch p4s, litMatch p5s,
   litMatch pb1, litMatch pb2,
   litMatch adapterLit, litMatch pA1, litMatch pA2, litMatch pA3]

theorem preBody_some (s : List Char) (k : Nat) (body : List Char)
    (h : preBody s = some (k, body)) : 34 ≤ k := by
  unfold preBody at h
  cases hd : dropLit sigPF s with
  | none => rw [hd] at h; simp at h
  | some r1 =>
    rw [hd] at h
    dsimp only at h
    cases hs : scanTo ')' r1 with
    | none => rw [hs] at h; simp at h
    | some n2 =>
      rw [hs] at h
      dsimp only at h
      cases hw : wsOpen (List.drop n2 r1) with
      | none => rw [hw] at h; simp at h
      | some n3 =>
        rw [hw] at h
        dsimp only at h
        simp only [Option.some.injEq, Prod.mk.injEq] at h
        have hsig : sigPF.length = 34 := by decide
        omega

theorem pfMatchLen_pos (s : List Char) (n : Nat)
    (h : pfMatchLen s = some n) : 1 ≤ n := by
  unfold pfMatchLen at h
  cases hp : preBody s with
  | none => rw [hp] at h; simp at h
  | some kb =>
    obtain ⟨k, body⟩ := kb
    rw [hp] at h
    simp only [Option.map_eq_some'] at h
    obtain ⟨n4, _, hn4⟩ := h
    have := preBody_some s k body hp
    omega

theorem pfMatchLen_nil : pfMatchLen [] = none := by decide

/-- The deterministic `[^}]*\}` scan never reaches past the first point
where brace nesting returns to depth zero. -/
theorem scanTo_le_balScan :
    ∀ (body : List Char) (d n m2 : Nat), 1 ≤ d →
      scanTo '\x7d' body = some n → balScan d body = some m2 → n ≤ m2 := by
  intro body
  induction body with
  | nil => intro d n m2 _ hs _; simp [scanTo] at hs
  | cons c cs ih =>
    intro d n m2 hd hs hb
    simp only [scanTo] at hs
    simp only [balScan] at hb
    by_cases hc : c = '\x7d'
    · rw [if_pos hc] at hs
      rw [if_pos hc] at hb
      simp only [Option.some.injEq] at hs
      by_cases hd1 : d = 1
      · rw [if_pos hd1] at hb
        simp only [Option.some.injEq] at hb
        omega
      · rw [if_neg hd1] at hb
        cases hbb : balScan (d - 1) cs with
        | none => rw [hbb] at hb; simp at hb
        | some m3 =>
          rw [hbb] at hb
          simp only [Option.map_some', Option.some.injEq] at hb
          omega
    · rw [if_neg hc] at hs
      rw [if_neg hc] at hb
      cases hsc : scanTo '\x7d' cs with
      | none => rw [hsc] at hs; simp at hs
      | some n3 =>
        rw [hsc] at hs
        simp only [Option.map_some', Option.some.injEq] at hs
        by_cases hbrace : c = '\x7b'
        · rw [if_pos hbrace] at hb
          cases hbb : balScan (d + 1) cs with
          | none => rw [hbb] at hb; simp at hb
          | some m3 =>
            rw [hbb] at hb
            simp only [Option.map_some', Option.some.injEq] at hb
            have := ih (d + 1) n3 m3 (by omega) hsc hbb
            omega
        · rw [if_neg hbrace] at hb
          cases hbb : balScan d cs with
          | none => rw [hbb] at hb; simp at hb
          | some m3 =>
            rw [hbb] at hb
            simp only [Option.map_some', Option.some.injEq] at hb
            have := ih d n3 m3 hd hsc hbb
            omega

/-- Every write event in the trace is strictly preceded by a backup event
holding the pre-transform on-disk content. -/
def safeTrace (orig : List Char) (t : List Ev) : Prop :=
  ∀ i, ∀ hi : i < t.length, isWriteEv (t.get ⟨i, hi⟩) = true →
    ∃ j, ∃ hj : j < t.length, j < i ∧ t.get ⟨j, hj⟩ = Ev.backup orig

/-! ### The claims -/

/-- C1 (counterexample): fix_all writes the rewritten content with no
backup event at all — the claim that every write in a batch run is
preceded by a backup of the pre-transform content fails outside fix.py. -/
theorem c1_counterexample :
    (fixAllProcess ("Canvas = c".data)).any isWriteEv = true
    ∧ (fixAllProcess ("Canvas = c".data)).any isBackupEv = false := by
  decide

/-- C1 (amended): in fix.py every write event is strictly preceded by a
backup event whose content is exactly the pre-transform on-disk content;
the other three scripts write without any backup. -/
theorem c1_amended_fixpy_backup_before_write :
    ∀ d : List Char, safeTrace d (fixPyProcess d) := by
  intro d
  unfold fixPyProcess
  by_cases hc : fixPyContent d = d
  · rw [if_pos hc]
    intro i hi
    simp at hi
  · rw [if_neg hc]
    intro i hi hw
    match i, hi with
    | 0, hi => simp [isWriteEv, List.get] at hw
    | 1, hi => exact ⟨0, by simp, by omega, rfl⟩
    | 2, hi => simp [isWriteEv, List.get] at hw
    | n + 3, hi => simp at hi

/-- C2 (counterexample): fix_simple.py performs a write even when the
transformation changed nothing. -/
theorem c2_counterexample :
    fixSimpleContent ("int x;".data) = "int x;".data
    ∧ (fixSimpleProcess ("int x;".data)).any isWriteEv = true := by
  decide

/-- C2 (amended): fix.py writes exactly when the transformed content
differs and fix_all writes exactly when a pattern fired, but
fix_simple.py and fix_braces.py always write the transformed content back
(the written value equals the original when no rule matched, leaving the
on-disk value unchanged). -/
theorem c2_amended_write_conditions :
    ∀ d : List Char,
      ((fixPyProcess d).any isWriteEv = true ↔ fixPyContent d ≠ d)
      ∧ (fixAllProcess d).any isWriteEv = (fixAllResult d).2
      ∧ fixSimpleProcess d = [Ev.write (fixSimpleContent d)]
      ∧ fixBracesProcess d = [Ev.write (fixBracesContent d)] := by
  intro d
  refine ⟨?_, ?_, rfl, rfl⟩
  · by_cases hc : fixPyContent d = d
    · simp [fixPyProcess, hc]
    · simp [fixPyProcess, hc, isWriteEv]
  · cases hb : (fixAllResult d).2 with
    | true => simp [fixAllProcess, hb, isWriteEv]
    | false => simp [fixAllProcess, hb]

/-- C3 (counterexample): fix_simple.py is not idempotent — on
`Canvas = c })` the first run appends `;`, and the `Canvas = c })` rule
matches its own output again, so a second run changes the content. -/
theorem c3_counterexample :
    fixSimpleContent (fixSimpleContent ("Canvas = c \x7d)".data))
      ≠ fixSimpleContent ("Canvas = c \x7d)".data) := by
  decide

/-- C3 (amended): fix_all's transformation is idempotent — a second run
always reports no change, because every replacement inserts the
`SkiaCanvasAdapter` token that the guard checks before rematching.
(fix_simple's transformation is not idempotent, see the counterexample.) -/
theorem c3_amended_fixall_idempotent :
    ∀ d : List Char, (fixAllResult (fixAllResult d).1).2 = false := by
  intro d
  have hfired : ∀ (p r : List Char), p ≠ [] → occursB adapterLit r = true →
      occursB p d = true → occursB adapterLit (repAll p r d) = true := by
    intro p r hp hr hocc
    obtain ⟨a, b, hab⟩ := repAll_inserts p r hp d hocc
    have hin : Occ adapterLit r := (occursB_iff _ _).mp hr
    have hout : Occ adapterLit (repAll p r d) := by
      rw [hab]
      exact occ_of_part hin a b
    exact (occursB_iff _ _).mpr hout
  by_cases h0 : occursB adapterLit d = true
  · have h1 : fixAllResult d = (d, false) := by simp [fixAllResult, h0]
    rw [h1]
    simp [fixAllResult, h0]
  · simp only [Bool.not_eq_true] at h0
    by_cases hA1 : occursB pA1 d = true
    · have h1 : fixAllResult d = (repAll pA1 rA1 d, true) := by
        simp [fixAllResult, h0, hA1]
      rw [h1]
      have hocc := hfired pA1 rA1 (by decide) (by decide) hA1
      simp [fixAllResult, hocc]
    · simp only [Bool.not_eq_true] at hA1
      by_cases hA2 : occursB pA2 d = true
      · have h1 : fixAllResult d = (repAll pA2 rA2 d, true) := by
          simp [fixAllResult, h0, hA1, hA2]
        rw [h1]
        have hocc := hfired pA2 rA2 (by decide) (by decide) hA2
        simp [fixAllResult, hocc]
      · simp only [Bool.not_eq_true] at hA2
        by_cases hA3 : occursB pA3 d = true
        · have h1 : fixAllResult d = (repAll pA3 rA3 d, true) := by
            simp [fixAllResult, h0, hA1, hA2, hA3]
          rw [h1]
          have hocc := hfired pA3 rA3 (by decide) (by decide) hA3
          simp [fixAllResult, hocc]
        · simp only [Bool.not_eq_true] at hA3
          have h1 : fixAllResult d = (d, false) := by
            simp [fixAllResult, h0, hA1, hA2, hA3]
          rw [h1]
          simp [fixAllResult, h0, hA1, hA2, hA3]

/-- C4 (counterexample): on `}  ` (trailing blanks, no substantive rule
fires) fix.py still reports a change, creates a backup and writes — the
whitespace normalization alone flips the change flag. -/
theorem c4_counterexample :
    fixPySubstantive ("\x7d  ".data) = "\x7d  ".data
    ∧ fixPyContent ("\x7d  ".data) ≠ "\x7d  ".data
    ∧ (fixPyProcess ("\x7d  ".data)).any isBackupEv = true
    ∧ (fixPyProcess ("\x7d  ".data)).any isWriteEv = true := by
  decide

/-- C4 (amended): when no substantive rule fires but the whitespace
normalization changes the content, fix.py treats the file as changed and
performs the full backup-write-verify sequence. -/
theorem c4_amended_normalization_triggers_write :
    ∀ d : List Char, fixPySubstantive d = d → normalizeEnding d ≠ d →
      fixPyProcess d =
        [Ev.backup d, Ev.write (normalizeEnding d),
         Ev.verify (verifyIssues (normalizeEnding d))] := by
  intro d h1 h2
  have hc : fixPyContent d = normalizeEnding d := by
    unfold fixPyContent
    rw [h1]
  unfold fixPyProcess
  rw [hc, if_neg h2]

/-- C4 (witness): the amended statement at the concrete input `}  `. -/
theorem c4_witness :
    fixPyProcess ("\x7d  ".data) =
      [Ev.backup ("\x7d  ".data), Ev.write (normalizeEnding ("\x7d  ".data)),
       Ev.verify (verifyIssues (normalizeEnding ("\x7d  ".data)))] :=
  c4_amended_normalization_triggers_write ("\x7d  ".data) (by decide) (by decide)

/-- C7 (counterexample): in fix.py's main loop an error raised while
processing the first file aborts the batch — a two-file batch yields only
one outcome, so the second file is never processed. -/
theorem c7_counterexample :
    (fixPyMain [FileSpec.ioError, FileSpec.ok ("x".data)]).length = 1
    ∧ ([FileSpec.ioError, FileSpec.ok ("x".data)] : List FileSpec).length = 2 := by
  constructor <;> rfl

/-- C7 (amended): the try/except loops of fix_braces.py and fix_simple.py
really are per-file: the batch outcome is the pointwise image of the file
list, so every file is processed and a failure is recorded in that file's
outcome only.  (fix.py and fix_all lack the try/except and abort instead,
see the counterexample.) -/
theorem c7_amended_tryexcept_mains_isolate :
    ∀ l : List FileSpec,
      fixBracesMain l = l.map fixBracesOutcome
      ∧ fixSimpleMain l = l.map fixSimpleOutcome := by
  intro l
  induction l with
  | nil => exact ⟨rfl, rfl⟩
  | cons f rest ih =>
    cases f with
    | missing =>
      exact ⟨by simp [fixBracesMain, fixBracesOutcome, ih.1],
        by simp [fixSimpleMain, fixSimpleOutcome, ih.2]⟩
    | ok d =>
      exact ⟨by simp [fixBracesMain, fixBracesOutcome, ih.1],
        by simp [fixSimpleMain, fixSimpleOutcome, ih.2]⟩
    | ioError =>
      exact ⟨by simp [fixBracesMain, fixBracesOutcome, ih.1],
        by simp [fixSimpleMain, fixSimpleOutcome, ih.2]⟩

/-- C8 (confirmed): whenever fix.py finds the content changed, the trace
is exactly backup, then write, then verification — the write happens even
when the verifier reports issues (the hypothesis below), verification
runs strictly after the write on the written content, accumulates its
findings in a report, and neither raises nor reverts anything. -/
theorem c8_verifier_nonblocking :
    ∀ d : List Char, fixPyContent d ≠ d →
      verifyIssues (fixPyContent d) ≠ [] →
      fixPyProcess d =
        [Ev.backup d, Ev.write (fixPyContent d),
         Ev.verify (verifyIssues (fixPyContent d))] := by
  intro d h1 _
  unfold fixPyProcess
  rw [if_neg h1]

/-- C8 (witness): a concrete changed file with a nonempty verification
report (an unmatched `#region` and a bad ending) is still written. -/
theorem c8_witness :
    fixPyProcess ("#region".data) =
      [Ev.backup ("#region".data), Ev.write (fixPyContent ("#region".data)),
       Ev.verify (verifyIssues (fixPyContent ("#region".data)))] :=
  c8_verifier_nonblocking ("#region".data) (by decide) (by decide)

/-- C9 (confirmed): every matcher in the catalog, run at every position of
an arbitrary input by the search loop, terminates within a linear fuel
budget and answers either "match" or "no match" — the fuelled search never
exhausts its budget (which would model an abnormal termination). -/
theorem c9_matcher_totality :
    ∀ m, m ∈ matcherCatalog → ∀ s : List Char,
      searchF m (s.length + 1) s = some (searchB m s) := by
  intro m _ s
  exact searchF_complete m s (s.length + 1) (by omega)

/-- C9 (witness): the ProcessFrame matcher on a malformed fragment
answers without exhausting its fuel. -/
theorem c9_witness :
    searchF pfMatchLen (("public void broken \x7b\x7b".data).length + 1)
        ("public void broken \x7b\x7b".data)
      = some (searchB pfMatchLen ("public void broken \x7b\x7b".data)) :=
  c9_matcher_totality pfMatchLen (by simp [matcherCatalog])
    ("public void broken \x7b\x7b".data)

/-- C5 (counterexample): on a ProcessFrame method whose body contains a
nested brace pair, the pattern's `[^}]*\}` stops at the first closing
brace — strictly inside the body, before the first depth-zero closer. -/
theorem c5_counterexample :
    (pfMatchLen ("public override void ProcessFrame(x) \x7b if (b) \x7b y(); \x7d z(); \x7d".data)).isSome = true
    ∧ (specBalancedMatchLen ("public override void ProcessFrame(x) \x7b if (b) \x7b y(); \x7d z(); \x7d".data)).isSome = true
    ∧ (pfMatchLen ("public override void ProcessFrame(x) \x7b if (b) \x7b y(); \x7d z(); \x7d".data)).getD 0
        < (specBalancedMatchLen ("public override void ProcessFrame(x) \x7b if (b) \x7b y(); \x7d z(); \x7d".data)).getD 0 := by
  decide

/-- C5 (amended): the body-matching pattern never spans past the first
balanced closer — whenever both the source-side match and the spec-side
balanced match exist, the source match is no longer (it stops at the
first closing brace, which for nested bodies is strictly inside). -/
theorem c5_amended_match_never_longer :
    ∀ (s : List Char) (n m2 : Nat),
      pfMatchLen s = some n → specBalancedMatchLen s = some m2 → n ≤ m2 := by
  intro s n m2 h1 h2
  unfold pfMatchLen at h1
  unfold specBalancedMatchLen at h2
  cases hp : preBody s with
  | none =>
    rw [hp] at h1
    simp at h1
  | some kb =>
    obtain ⟨k, body⟩ := kb
    rw [hp] at h1 h2
    dsimp only at h1 h2
    simp only [Option.map_eq_some'] at h1 h2
    obtain ⟨n4, hsc, hn⟩ := h1
    obtain ⟨m4, hbb, hm⟩ := h2
    have := scanTo_le_balScan body 1 n4 m4 (by omega) hsc hbb
    omega

/-- C5 (witness): on a flat body both notions of match agree. -/
theorem c5_witness :
    pfMatchLen ("public override void ProcessFrame(x) \x7by\x7d".data) = some 40
    ∧ specBalancedMatchLen ("public override void ProcessFrame(x) \x7by\x7d".data) = some 40
    ∧ (40 : Nat) ≤ 40 :=
  ⟨by decide, by decide,
    c5_amended_match_never_longer
      ("public override void ProcessFrame(x) \x7by\x7d".data) 40 40
      (by decide) (by decide)⟩

/-- C6 (counterexample): a file with two ProcessFrame blocks has both
replaced by fix.py's step 1 (`re.sub` replaces every non-overlapping
match): no `ProcessFrame` text survives and two `ProcessCore` copies
appear. -/
theorem c6_counterexample :
    countSub ("ProcessFrame".data)
        (fixPyStep1 ("public override void ProcessFrame(int a) \x7b x; \x7d public override void ProcessFrame(int b) \x7b y; \x7d".data)) = 0
    ∧ countSub ("ProcessCore".data)
        (fixPyStep1 ("public override void ProcessFrame(int a) \x7b x; \x7d public override void ProcessFrame(int b) \x7b y; \x7d".data)) = 2 := by
  decide

/-- C6 (amended): a match at the current position is replaced and the
scan recurses into the remainder with the same rule, so when another
match exists later the replacement block is inserted there as well —
every non-overlapping occurrence is rewritten, not only the first. -/
theorem c6_amended_all_occurrences_replaced :
    ∀ (s : List Char) (n : Nat), pfMatchLen s = some n →
      searchB pfMatchLen (List.drop n s) = true →
      fixPyStep1 s = replPF ++ fixPyStep1 (List.drop n s)
      ∧ ∃ a b, fixPyStep1 (List.drop n s) = a ++ replPF ++ b := by
  intro s n h1 h2
  constructor
  · cases s with
    | nil =>
      rw [pfMatchLen_nil] at h1
      exact absurd h1 (by simp)
    | cons c cs =>
      exact subAll_match pfMatchLen replPF c cs n h1 (pfMatchLen_pos _ n h1)
  · exact subAll_inserts pfMatchLen replPF (List.drop n s) h2

/-- C6 (witness): the amended statement at the concrete two-block input
(the first match spans 47 characters). -/
theorem c6_witness :
    fixPyStep1 ("public override void ProcessFrame(int a) \x7b x; \x7d public override void ProcessFrame(int b) \x7b y; \x7d".data)
        = replPF ++ fixPyStep1 (List.drop 47 ("public override void ProcessFrame(int a) \x7b x; \x7d public override void ProcessFrame(int b) \x7b y; \x7d".data))
    ∧ ∃ a b, fixPyStep1 (List.drop 47 ("public override void ProcessFrame(int a) \x7b x; \x7d public override void ProcessFrame(int b) \x7b y; \x7d".data))
        = a ++ replPF ++ b :=
  c6_amended_all_occurrences_replaced _ 47 (by decide) (by decide)

/-- The text the shadowed `.Process(f, c)` occurrence turns into: the
rule-2 replacement ends in `Canvas = ` and the leftover ` c)` follows,
leaving `Canvas =  c)` (two spaces, no closing brace) in the output. -/
def qC : List Char := "Canvas =  c)".data

/-- The leftover after the `.Process(f,` prefix inside `.Process(f, c)`. -/
def tC : List Char := " c)".data

/-- C10 (confirmed): for every input containing `.Process(f, c)`, the
`.Process(f,` rule fires first and consumes the occurrence, so the
dedicated `.Process(f, c)` rule is the identity on the intermediate text
(no occurrence of it survives rule 2); and the final output still
contains the dangling `Canvas =  c)` fragment — neither the
`Canvas =  canvas);` rule nor the `Canvas = c })` rule touches it, so the
inserted RenderContext initializer is left without its closing `})`. -/
theorem c10_process_rule_shadowing :
    ∀ s : List Char, occursB p3s s = true →
      repAll p3s r3s (repAll p2s r2s (repAll p1s r1s s))
          = repAll p2s r2s (repAll p1s r1s s)
      ∧ occursB qC (fixSimpleContent s) = true := by
  intro s hocc
  obtain ⟨a0, b0, hs⟩ := (occursB_iff _ _).mp hocc
  rw [List.append_assoc] at hs
  obtain ⟨a1, b1, hx1⟩ := repAll_preserves p1s p3s r1s
    (by decide) (by decide) (by decide) a0 b0
  rw [← hs] at hx1
  have hsplit : p3s = p2s ++ tC := by decide
  have hx1b : repAll p1s r1s s = a1 ++ ((p2s ++ tC) ++ b1) := by
    rw [hx1, hsplit]
  obtain ⟨a2, b2, hx2⟩ := repAll_creates p2s r2s tC
    (by decide) (by decide) (by decide) a1 b1
  rw [← hx1b] at hx2
  have hqin : Occ qC (r2s ++ tC) := (occursB_iff _ _).mp (by decide)
  have hqx2 : Occ qC (repAll p2s r2s (repAll p1s r1s s)) := by
    rw [hx2]
    have hpart := occ_of_part hqin a2 b2
    simpa [List.append_assoc] using hpart
  have helim : occursB p2s (repAll p2s r2s (repAll p1s r1s s)) = false :=
    repAll_elim p2s r2s (by decide) (by decide) (by decide) (by decide)
      (by decide) _
  have hnop3 : occursB p3s (repAll p2s r2s (repAll p1s r1s s)) = false := by
    cases hv : occursB p3s (repAll p2s r2s (repAll p1s r1s s)) with
    | false => rfl
    | true =>
      exfalso
      obtain ⟨x, y, hxy⟩ := (occursB_iff _ _).mp hv
      have hokk : Occ p2s (repAll p2s r2s (repAll p1s r1s s)) := by
        rw [hxy, hsplit]
        exact ⟨x, tC ++ y, by simp [List.append_assoc]⟩
      rw [(occursB_iff _ _).mpr hokk] at helim
      exact absurd helim (by simp)
  have hid : repAll p3s r3s (repAll p2s r2s (repAll p1s r1s s))
      = repAll p2s r2s (repAll p1s r1s s) :=
    repAll_id p3s r3s _ hnop3
  refine ⟨hid, ?_⟩
  obtain ⟨x2, y2, hx2occ⟩ := hqx2
  rw [List.append_assoc] at hx2occ
  obtain ⟨x4, y4, hx4⟩ := repAll_preserves p4s qC r4s
    (by decide) (by decide) (by decide) x2 y2
  rw [← hx2occ] at hx4
  obtain ⟨x5, y5, hx5⟩ := repAll_preserves p5s qC r5s
    (by decide) (by decide) (by decide) x4 y4
  rw [← hx4] at hx5
  have hfs : fixSimpleContent s
      = repAll p5s r5s (repAll p4s r4s (repAll p2s r2s (repAll p1s r1s s))) := by
    unfold fixSimpleContent
    rw [hid]
  rw [hfs]
  apply (occursB_iff _ _).mpr
  exact ⟨x5, y5, by rw [hx5, List.append_assoc]⟩

/-- C10 (witness): the statement at the input `.Process(f, c)` itself. -/
theorem c10_witness :
    repAll p3s r3s (repAll p2s r2s (repAll p1s r1s p3s))
        = repAll p2s r2s (repAll p1s r1s p3s)
    ∧ occursB qC (fixSimpleContent p3s) = true :=
  c10_process_rule_shadowing p3s (by decide)

end PhoenixFix
